import Mathlib

/-!
Verification development for the Hallownest Quest Journal repository
(a hierarchical todo list: users own collections of quests nested up to
depth 3, with create / content-update / move / cascading-delete
operations).

The repository ships the Next.js frontend and its API client; the Flask
backend that implements the record store and tree consistency engine is
not part of the source tree here, so the engine is modelled from the
design specification (spec.md sections 3, 4 and 7).  Frontend functions
(transformItemToQuest, countAllQuests, getAllQuestsFlat, the updateItem
request body construction and the moveQuest request) are translated
directly from the TypeScript sources.
-/

set_option maxHeartbeats 1000000

namespace HKTodo

/-! ## Engine data model -/

/-- Modelled from the spec: error taxonomy of §7 (the backend routes are
absent from the source tree). -/
inductive Err where
  | NotFound
  | Forbidden
  | CycleDetected
  | DepthExceeded
  | Conflict
deriving DecidableEq, Repr

/-- Modelled from the spec: a Collection (journal) record, §3 — id,
title, owning principal, sibling position (backend `models/list.py` is
absent from the source tree). -/
structure Collection where
  id : Nat
  title : String
  userId : Nat
  position : Int
deriving DecidableEq, Repr

/-- Modelled from the spec: a Quest record, §3 — id, title text,
completion flag, owning collection id, optional parent id, 1-based
depth, sibling position (backend `models/item.py` is absent from the
source tree; the README's schema lists the same columns with depth
called `level`). -/
structure Record where
  id : Nat
  title : String
  completed : Bool
  listId : Nat
  parentId : Option Nat
  depth : Int
  position : Int
deriving DecidableEq, Repr

/-- Modelled from the spec: the Record Store §4.1 — a durable table of
Collection records and Quest records. -/
structure Store where
  collections : List Collection
  records : List Record
deriving DecidableEq, Repr

/-- Modelled from the spec: `get(id) -> record | NotFound` on quest
records (§4.1), an id-indexed lookup in the arena of records. -/
def findRec (rs : List Record) (i : Nat) : Option Record :=
  rs.find? (fun r => r.id = i)

/-- Modelled from the spec: lookup of a collection row by id (§4.1). -/
def findCol (cs : List Collection) (i : Nat) : Option Collection :=
  cs.find? (fun c => c.id = i)

/-- Modelled from the spec: identifiers are opaque stable integers never
reused after deletion (§6); a fresh id is strictly above every live one. -/
def freshId (s : Store) : Nat :=
  (s.records.map Record.id).foldr max 0 + 1

/-- Modelled from the spec: the Ordering Allocator's append value (§4.3)
— strictly greater than the current maximum position in the
(collection, parent) scope. -/
def allocPos (rs : List Record) (cid : Nat) (pid : Option Nat) : Int :=
  ((rs.filter (fun r => r.listId = cid ∧ r.parentId = pid)).map Record.position).foldr max 0 + 1

/-- Modelled from the spec: the ancestor chain of a record id — the id
itself followed by the chain of its parent (§9: tree walks are explicit
id-indexed traversals).  `fuel` bounds the walk so it is total even on
corrupt data. -/
def ancChain : Nat → List Record → Nat → List Nat
  | 0, _, i => [i]
  | fuel + 1, rs, i =>
    i :: (match findRec rs i with
          | some r =>
            match r.parentId with
            | some p => ancChain fuel rs p
            | none => []
          | none => [])

/-- Fuel that always suffices to complete an ancestor chain of a
well-formed store (chain length is bounded by the depth bound 3). -/
def chainFuel (rs : List Record) : Nat := rs.length + 3

/-- Modelled from the spec: membership of `x` in the descendant subtree
of `root` (§4.2 step 1 / glossary "Subtree"), decided by walking parent
links up from `x`. -/
def subtreeMem (rs : List Record) (root x : Nat) : Bool :=
  decide (root ∈ ancChain (chainFuel rs) rs x)

/-! ## Engine invariant -/

/-- Parent-link coherence of one record: a top-level record has depth 1,
and a parented record has an existing parent in the same collection with
depth exactly one less (spec §3 invariants 2 and 4). -/
def parentOk (rs : List Record) (r : Record) : Prop :=
  (r.parentId = none → r.depth = 1) ∧
  (∀ p ∈ r.parentId.toList, ∃ pr ∈ rs, pr.id = p ∧ r.depth = pr.depth + 1 ∧ pr.listId = r.listId)

instance (rs : List Record) (r : Record) : Decidable (parentOk rs r) := by
  unfold parentOk
  infer_instance

/-- Well-formedness of a quest table: distinct ids, depth within
bounds, coherent parent links (spec §3 invariants). -/
def WfL (rs : List Record) : Prop :=
  (rs.map Record.id).Nodup ∧
  ∀ r ∈ rs, 1 ≤ r.depth ∧ r.depth ≤ 3 ∧ parentOk rs r

instance (rs : List Record) : Decidable (WfL rs) := by
  unfold WfL
  infer_instance

/-- Well-formedness of the store (spec §3 invariants on quests). -/
def Wf (s : Store) : Prop := WfL s.records

instance (s : Store) : Decidable (Wf s) := by
  unfold Wf
  infer_instance

/-- The depth discipline of spec §3 invariant 2, stated as the claims
state it: every depth is 1, 2 or 3; a top-level quest has depth 1; a
parented quest sits one level below its parent, and no parent is at
depth 3. -/
def DepthInv (s : Store) : Prop :=
  ∀ r ∈ s.records,
    (r.depth = 1 ∨ r.depth = 2 ∨ r.depth = 3) ∧
    (r.parentId = none → r.depth = 1) ∧
    (∀ p ∈ r.parentId.toList, ∀ pr ∈ s.records, pr.id = p →
      r.depth = pr.depth + 1 ∧ pr.depth ≤ 2)

instance (s : Store) : Decidable (DepthInv s) := by
  unfold DepthInv
  infer_instance

/-! ## Engine operations (spec §4.2) -/

/-- Modelled from the spec: CreateQuest(collectionId, title, parentId?)
(§4.2) — the caller must own the collection; a given parent must exist,
belong to the collection and have depth < 3; the new record's depth is
parent.depth + 1 (else 1) and its position is the allocator's append
value (backend `routes/items.py` is absent from the source tree). -/
def CreateQuest (s : Store) (uid cid : Nat) (title : String) (parentId : Option Nat) :
    Except Err Store :=
  match findCol s.collections cid with
  | none => .error .NotFound
  | some c =>
    if c.userId ≠ uid then .error .Forbidden
    else
      match parentId with
      | none =>
        .ok { s with records :=
          s.records ++ [⟨freshId s, title, false, cid, none, 1, allocPos s.records cid none⟩] }
      | some p =>
        match findRec s.records p with
        | none => .error .NotFound
        | some pr =>
          if pr.listId ≠ cid then .error .NotFound
          else if 3 ≤ pr.depth then .error .DepthExceeded
          else
            .ok { s with records :=
              s.records ++
                [⟨freshId s, title, false, cid, some p, pr.depth + 1,
                  allocPos s.records cid (some p)⟩] }

/-- Modelled from the spec: UpdateQuestContent(questId, title?,
completed?) (§4.2) — a pure field update with no structural effect. -/
def UpdateQuestContent (s : Store) (uid qid : Nat) (title : Option String)
    (completed : Option Bool) : Except Err Store :=
  match findRec s.records qid with
  | none => .error .NotFound
  | some q =>
    match findCol s.collections q.listId with
    | none => .error .NotFound
    | some c =>
      if c.userId ≠ uid then .error .Forbidden
      else
        .ok { s with records := s.records.map (fun r =>
          if r.id = qid then
            { r with title := title.getD r.title, completed := completed.getD r.completed }
          else r) }

/-- Modelled from the spec: the per-record rewrite of MoveQuest's commit
(§4.2 steps 7–8) — the moved root gets the new parent, depth and an
appended position; every other subtree member follows into the target
collection with depth shifted by the same amount; uninvolved records are
untouched. -/
def moveFun (s : Store) (qid : Nat) (q : Record) (tcid : Nat) (np : Option Nat)
    (nrd : Int) (r : Record) : Record :=
  if r.id = qid then
    { r with listId := tcid, parentId := np, depth := nrd,
             position := allocPos s.records tcid np }
  else if subtreeMem s.records qid r.id then
    { r with listId := tcid, depth := nrd + (r.depth - q.depth) }
  else r

/-- Modelled from the spec: MoveQuest steps 5–8 (§4.2) — reject with
DepthExceeded if the new root depth or any descendant's recomputed depth
`new_root_depth + (old_depth - old_root_depth)` exceeds 3, otherwise
commit the whole subtree rewrite as one atomic write. -/
def moveCommit (s : Store) (qid : Nat) (q : Record) (tcid : Nat) (np : Option Nat)
    (nrd : Int) : Except Err Store :=
  if 3 < nrd then .error .DepthExceeded
  else if ∃ r ∈ s.records, subtreeMem s.records qid r.id ∧ 3 < nrd + (r.depth - q.depth) then
    .error .DepthExceeded
  else .ok { s with records := s.records.map (moveFun s qid q tcid np nrd) }

/-- Modelled from the spec: MoveQuest(questId, targetCollectionId,
newParentId?) (§4.2) — Forbidden unless the caller owns both source and
target collections, CycleDetected if the new parent is the quest or one
of its descendants, NotFound if the new parent is absent or outside the
target collection, then the depth checks and atomic commit of
`moveCommit`. -/
def MoveQuest (s : Store) (uid qid tcid : Nat) (newParentId : Option Nat) :
    Except Err Store :=
  match findRec s.records qid with
  | none => .error .NotFound
  | some q =>
    match findCol s.collections q.listId, findCol s.collections tcid with
    | some sc, some tc =>
      if sc.userId ≠ uid ∨ tc.userId ≠ uid then .error .Forbidden
      else
        match newParentId with
        | some p =>
          if subtreeMem s.records qid p then .error .CycleDetected
          else
            match findRec s.records p with
            | none => .error .NotFound
            | some pr =>
              if pr.listId ≠ tcid then .error .NotFound
              else moveCommit s qid q tcid (some p) (pr.depth + 1)
        | none => moveCommit s qid q tcid none 1
    | _, _ => .error .NotFound

/-- Modelled from the spec: DeleteQuest(questId) (§4.2) — loads the full
descendant subtree and deletes it together with the quest atomically
(cascade). -/
def DeleteQuest (s : Store) (uid qid : Nat) : Except Err Store :=
  match findRec s.records qid with
  | none => .error .NotFound
  | some q =>
    match findCol s.collections q.listId with
    | none => .error .NotFound
    | some c =>
      if c.userId ≠ uid then .error .Forbidden
      else
        .ok { s with records := s.records.filter (fun r => ¬ subtreeMem s.records qid r.id) }

/-- Modelled from the spec: the engine as a pure function of
(current store state, operation) (§9 design note). -/
inductive Op where
  | create (uid cid : Nat) (title : String) (parentId : Option Nat)
  | updateContent (uid qid : Nat) (title : Option String) (completed : Option Bool)
  | move (uid qid tcid : Nat) (newParentId : Option Nat)
  | delete (uid qid : Nat)

/-- Modelled from the spec: dispatch of one mutation through the Tree
Consistency Engine (§4.2). -/
def applyOp (s : Store) : Op → Except Err Store
  | .create uid cid title parentId => CreateQuest s uid cid title parentId
  | .updateContent uid qid title completed => UpdateQuestContent s uid qid title completed
  | .move uid qid tcid newParentId => MoveQuest s uid qid tcid newParentId
  | .delete uid qid => DeleteQuest s uid qid

/-- Modelled from the spec: the transactional outcome of a mutation —
a rejected mutation is simply not committed, so the store keeps its
pre-operation state (§4.1 atomicity, §7). -/
def runOp (s : Store) (op : Op) : Store × Option Err :=
  match applyOp s op with
  | .ok s2 => (s2, none)
  | .error e => (s, some e)

/-! ## Read Projector (spec §4.4) -/

/-- Modelled from the spec: the nested tree shape returned by the Read
Projector. -/
inductive Tree where
  | node (r : Record) (children : List Tree)

/-- Modelled from the spec: sibling comparison — ordered by position,
ties resolved by record id ascending as a deterministic tiebreak
(§4.3). -/
def posLe (a b : Record) : Bool :=
  a.position < b.position ∨ (a.position = b.position ∧ a.id ≤ b.id)

/-- Insertion into a position-sorted sibling list. -/
def insertByPos (r : Record) : List Record → List Record
  | [] => [r]
  | x :: xs => if posLe r x then r :: x :: xs else x :: insertByPos r xs

/-- Modelled from the spec: sorting a sibling list by position (§4.4
"ordered by position"). -/
def sortByPos : List Record → List Record
  | [] => []
  | x :: xs => insertByPos x (sortByPos xs)

/-- Modelled from the spec: the children of a parent — the loaded
records grouped under that parent id, ordered by position (§4.4). -/
def childrenRecs (rs : List Record) (pid : Nat) : List Record :=
  sortByPos (rs.filter (fun r => r.parentId = some pid))

/-- Modelled from the spec: recursive assembly of children under each
parent (§4.4); `fuel` keeps the structure finite even on inconsistent
store data. -/
def buildForest : Nat → List Record → List Record → List Tree
  | 0, _, roots => roots.map (fun r => .node r [])
  | fuel + 1, rs, roots =>
    roots.map (fun r => .node r (buildForest fuel rs (childrenRecs rs r.id)))

/-- Modelled from the spec: `getTree(collectionId)` (§4.4) — loads
every quest of the collection, treats a record whose parent does not
resolve among the loaded records as top-level (defensive), and
recursively assembles children ordered by position. -/
def getTree (s : Store) (cid : Nat) : List Tree :=
  let loaded := s.records.filter (fun r => r.listId = cid)
  let tops := loaded.filter (fun r =>
    match r.parentId with
    | none => true
    | some p => (findRec loaded p).isNone)
  buildForest (chainFuel s.records) loaded (sortByPos tops)

/-- Records of a forest in preorder. -/
def flattenForest : List Tree → List Record
  | [] => []
  | .node r children :: rest => r :: (flattenForest children ++ flattenForest rest)

/-! ## Frontend embeddings (from the TypeScript sources) -/

/-- The frontend Quest shape (frontend/lib/types.ts): id, content,
completion flag, 0-based depth, owning list id, optional parent id and
nested children. -/
inductive QuestF where
  | mk (id : String) (content : String) (isCompleted : Bool) (depth : Int)
       (listId : String) (parentId : Option String) (children : List QuestF)

def QuestF.children : QuestF → List QuestF
  | .mk _ _ _ _ _ _ cs => cs

def QuestF.depth : QuestF → Int
  | .mk _ _ _ d _ _ _ => d

/-- A backend item as the frontend receives it over the API: numeric id,
title, completed flag, 1-based level, list id, nullable parent id and
nested children (README schema of the `items` table). -/
inductive Item where
  | mk (id : Nat) (title : String) (completed : Bool) (level : Int)
       (list_id : Nat) (parent_id : Option Nat) (children : List Item)

def Item.level : Item → Int
  | .mk _ _ _ l _ _ _ => l

def Item.children : Item → List Item
  | .mk _ _ _ _ _ _ cs => cs

/-- `transformItemToQuest` from frontend/contexts/data-context.tsx:
turns a backend item into a frontend quest — id stringified, content
from the title, depth set to `item.level - 1` (backend 1-based, frontend
0-based), the nullable parent id stringified through a JS truthiness
test (so id 0 also maps to null), children transformed recursively. -/
def transformItemToQuest : Item → QuestF
  | .mk id title completed level list_id parent_id children =>
    .mk (toString id) title completed (level - 1) (toString list_id)
      (match parent_id with
       | some p => if p ≠ 0 then some (toString p) else none
       | none => none)
      (children.attach.map (fun c => transformItemToQuest c.1))
termination_by i => sizeOf i
decreasing_by
  have := List.sizeOf_lt_of_mem c.2
  simp_wf
  omega

/-- The 1-based levels of an item tree in preorder. -/
def levelsOf : Item → List Int
  | .mk _ _ _ level _ _ children => level :: ((children.attach.map (fun c => levelsOf c.1)).flatten)
termination_by i => sizeOf i
decreasing_by
  have := List.sizeOf_lt_of_mem c.2
  simp_wf
  omega

/-- The depths of a frontend quest tree in preorder. -/
def depthsOf : QuestF → List Int
  | .mk _ _ _ depth _ _ children => depth :: ((children.attach.map (fun c => depthsOf c.1)).flatten)
termination_by q => sizeOf q
decreasing_by
  have := List.sizeOf_lt_of_mem c.2
  simp_wf
  omega

theorem sizeOf_children_lt (q : QuestF) : sizeOf q.children < sizeOf q := by
  cases q with
  | mk i c comp d l p cs => simp [QuestF.children]

/-- `countAllQuests` from frontend/components/list-card.tsx: counts the
quests of a forest, adding the recursive count of each quest's children
when it has any. -/
def countAllQuests : List QuestF → Nat
  | [] => 0
  | q :: rest =>
    (1 + (if q.children.length > 0 then countAllQuests q.children else 0)) +
      countAllQuests rest
termination_by qs => sizeOf qs
decreasing_by
  all_goals simp_wf
  all_goals have hlt := sizeOf_children_lt q
  all_goals omega

/-- `getAllQuestsFlat` from frontend/app/lists/[id]/page.tsx: flattens a
quest forest in preorder, concatenating each quest's flattened children
when it has any. -/
def getAllQuestsFlat : List QuestF → List QuestF
  | [] => []
  | q :: rest =>
    (q :: (if q.children.length > 0 then getAllQuestsFlat q.children else [])) ++
      getAllQuestsFlat rest
termination_by qs => sizeOf qs
decreasing_by
  all_goals simp_wf
  all_goals have hlt := sizeOf_children_lt q
  all_goals omega

/-- The updates object accepted by `updateItem` in frontend/lib/api.ts:
every field optional; for `parent_id` the outer option records whether
the key is present at all and the inner option is the nullable value. -/
structure ItemUpdates where
  title : Option String := none
  completed : Option Bool := none
  position : Option Int := none
  list_id : Option Nat := none
  parent_id : Option (Option Nat) := none
deriving DecidableEq, Repr

/-- The request body built by `updateItem` in frontend/lib/api.ts: each
field is copied into the body exactly when it is present in the updates
object (`!== undefined` for the first four, `'parent_id' in updates` for
the nullable parent id). -/
def updateItemBody (updates : ItemUpdates) : ItemUpdates :=
  { title := updates.title
    completed := updates.completed
    position := updates.position
    list_id := updates.list_id
    parent_id := updates.parent_id }

/-- The updates object passed to `updateItem` by `moveQuest` in
frontend/contexts/data-context.tsx: the target list id, and a
`parent_id` key that is always present — the parsed new parent id when
one is supplied (JS truthiness test on the id string), null
otherwise. -/
def moveQuestUpdates (toListId : Nat) (newParentId : Option Nat) : ItemUpdates :=
  { list_id := some toListId
    parent_id := some (match newParentId with
                       | some p => some p
                       | none => none) }

/-! ## Lookup lemmas -/

theorem findRec_eq_some (rs : List Record) (i : Nat) (r : Record)
    (h : findRec rs i = some r) : r ∈ rs ∧ r.id = i := by
  unfold findRec at h
  refine ⟨List.mem_of_find?_eq_some h, ?_⟩
  have := List.find?_some h
  simpa using this

theorem findRec_eq_none (rs : List Record) (i : Nat) :
    findRec rs i = none ↔ ∀ r ∈ rs, r.id ≠ i := by
  unfold findRec
  rw [List.find?_eq_none]
  simp

theorem findRec_of_mem (rs : List Record) (r : Record)
    (hn : (rs.map Record.id).Nodup) (hm : r ∈ rs) : findRec rs r.id = some r := by
  induction rs with
  | nil => cases hm
  | cons a tl ih =>
    rcases List.mem_cons.mp hm with h | h
    · subst h
      unfold findRec
      simp [List.find?_cons]
    · have hn' : (tl.map Record.id).Nodup := (List.nodup_cons.mp hn).2
      have hane : a.id ≠ r.id := by
        intro he
        exact (List.nodup_cons.mp hn).1 (he ▸ List.mem_map_of_mem Record.id h)
      unfold findRec at ih ⊢
      simp only [List.find?_cons]
      have : (decide (a.id = r.id)) = false := by simpa using hane
      rw [this]
      exact ih hn' h

theorem rec_id_inj (rs : List Record) (hn : (rs.map Record.id).Nodup)
    (a b : Record) (ha : a ∈ rs) (hb : b ∈ rs) (h : a.id = b.id) : a = b :=
  List.inj_on_of_nodup_map hn ha hb h

theorem WfL_parent (rs : List Record) (hwf : WfL rs) (r : Record) (hm : r ∈ rs)
    (p : Nat) (hp : r.parentId = some p) :
    ∃ pr ∈ rs, pr.id = p ∧ r.depth = pr.depth + 1 ∧ pr.listId = r.listId := by
  have h := ((hwf.2 r hm).2.2).2 p (by simp [hp])
  exact h

/-! ## Ancestor-chain lemmas -/

theorem ancChain_stable_aux (rs : List Record) (hwf : WfL rs) :
    ∀ n r f g, r ∈ rs → r.depth.toNat = n → n ≤ f + 1 → n ≤ g + 1 →
      ancChain f rs r.id = ancChain g rs r.id := by
  intro n
  induction n using Nat.strong_induction_on with
  | _ n ih =>
    intro r f g hm hd hf hg
    have hd1 : 1 ≤ r.depth := (hwf.2 r hm).1
    have hfind : findRec rs r.id = some r := findRec_of_mem rs r hwf.1 hm
    have hn1 : 1 ≤ n := by omega
    -- when the fuel is 0 the record must be top-level
    have htop : ∀ h : Nat, h + 1 = n → n ≤ 1 → r.parentId = none := by
      intro h hh hle
      rcases hpar : r.parentId with _ | p
      · rfl
      · exfalso
        obtain ⟨pr, hprm, _, hdep, _⟩ := WfL_parent rs hwf r hm p hpar
        have : 1 ≤ pr.depth := (hwf.2 pr hprm).1
        omega
    match f, g with
    | 0, 0 => rfl
    | 0, g + 1 =>
      have hpar : r.parentId = none := htop 0 (by omega) (by omega)
      simp [ancChain, hfind, hpar]
    | f + 1, 0 =>
      have hpar : r.parentId = none := htop 0 (by omega) (by omega)
      simp [ancChain, hfind, hpar]
    | f + 1, g + 1 =>
      rcases hpar : r.parentId with _ | p
      · simp [ancChain, hfind, hpar]
      · obtain ⟨pr, hprm, hpid, hdep, _⟩ := WfL_parent rs hwf r hm p hpar
        have hd1p : 1 ≤ pr.depth := (hwf.2 pr hprm).1
        have hm' : pr.depth.toNat = n - 1 := by omega
        have : ancChain f rs pr.id = ancChain g rs pr.id :=
          ih (n - 1) (by omega) pr f g hprm hm' (by omega) (by omega)
        simp only [ancChain, hfind, hpar]
        rw [← hpid, this]

theorem ancChain_stable (rs : List Record) (hwf : WfL rs) (r : Record) (hm : r ∈ rs)
    (f g : Nat) (hf : 2 ≤ f) (hg : 2 ≤ g) :
    ancChain f rs r.id = ancChain g rs r.id := by
  have hd3 : r.depth ≤ 3 := (hwf.2 r hm).2.1
  have hd1 : 1 ≤ r.depth := (hwf.2 r hm).1
  exact ancChain_stable_aux rs hwf r.depth.toNat r f g hm rfl (by omega) (by omega)

theorem subtreeMem_self (rs : List Record) (i : Nat) : subtreeMem rs i i = true := by
  unfold subtreeMem
  cases h : chainFuel rs with
  | zero => simp [ancChain]
  | succ n => simp [ancChain]

theorem chainFuel_ge (rs : List Record) : 3 ≤ chainFuel rs := by
  unfold chainFuel
  omega

theorem ancChain_succ (fuel : Nat) (rs : List Record) (i : Nat) :
    ancChain (fuel + 1) rs i =
      i :: (match findRec rs i with
            | some r =>
              match r.parentId with
              | some p => ancChain fuel rs p
              | none => []
            | none => []) := rfl

theorem subtreeMem_child (rs : List Record) (hwf : WfL rs) (root : Nat)
    (c : Record) (hm : c ∈ rs) (p : Nat) (hp : c.parentId = some p)
    (hsp : subtreeMem rs root p = true) : subtreeMem rs root c.id = true := by
  obtain ⟨pr, hprm, hpid, _, _⟩ := WfL_parent rs hwf c hm p hp
  have hfind : findRec rs c.id = some c := findRec_of_mem rs c hwf.1 hm
  unfold subtreeMem at hsp ⊢
  rw [decide_eq_true_iff] at hsp ⊢
  rw [show chainFuel rs = (rs.length + 2) + 1 from rfl]
  rw [ancChain_succ]
  simp only [hfind, hp]
  rw [List.mem_cons]
  right
  have hstab : ancChain (rs.length + 2) rs pr.id = ancChain (chainFuel rs) rs pr.id :=
    ancChain_stable rs hwf pr hprm _ _ (by omega) (by have := chainFuel_ge rs; omega)
  rw [hpid] at hstab
  rw [hstab]
  exact hsp

theorem subtreeMem_parent (rs : List Record) (hwf : WfL rs) (root : Nat)
    (c : Record) (hm : c ∈ rs) (hs : subtreeMem rs root c.id = true)
    (hne : c.id ≠ root) :
    ∃ p, c.parentId = some p ∧ subtreeMem rs root p = true := by
  have hfind : findRec rs c.id = some c := findRec_of_mem rs c hwf.1 hm
  unfold subtreeMem at hs
  rw [decide_eq_true_iff] at hs
  rw [show chainFuel rs = (rs.length + 2) + 1 from rfl] at hs
  rw [ancChain_succ] at hs
  simp only [hfind] at hs
  rcases List.mem_cons.mp hs with h | h
  · exact absurd h.symm hne
  · rcases hpar : c.parentId with _ | p
    · rw [hpar] at h
      simp at h
    · rw [hpar] at h
      refine ⟨p, rfl, ?_⟩
      obtain ⟨pr, hprm, hpid, _, _⟩ := WfL_parent rs hwf c hm p hpar
      unfold subtreeMem
      rw [decide_eq_true_iff]
      have hstab : ancChain (rs.length + 2) rs pr.id = ancChain (chainFuel rs) rs pr.id :=
        ancChain_stable rs hwf pr hprm _ _ (by omega) (by have := chainFuel_ge rs; omega)
      rw [hpid] at hstab
      rw [← hstab]
      exact h

theorem le_foldr_max (l : List Nat) (x : Nat) (h : x ∈ l) : x ≤ l.foldr max 0 := by
  induction l with
  | nil => cases h
  | cons a tl ih =>
    rcases List.mem_cons.mp h with h | h
    · rw [h]
      exact le_max_left _ _
    · exact le_trans (ih h) (le_max_right _ _)

theorem freshId_not_mem (s : Store) (r : Record) (h : r ∈ s.records) :
    r.id ≠ freshId s := by
  have := le_foldr_max (s.records.map Record.id) r.id (List.mem_map_of_mem Record.id h)
  unfold freshId
  omega

theorem parentOk_append (rs l : List Record) (r : Record) (h : parentOk rs r) :
    parentOk (rs ++ l) r := by
  obtain ⟨h1, h2⟩ := h
  refine ⟨h1, fun p hp => ?_⟩
  obtain ⟨pr, hm, hrest⟩ := h2 p hp
  exact ⟨pr, List.mem_append_left l hm, hrest⟩

theorem findRec_map (rs : List Record) (f : Record → Record)
    (hid : ∀ r, (f r).id = r.id) (i : Nat) :
    findRec (rs.map f) i = (findRec rs i).map f := by
  unfold findRec
  have hfun : ((fun r : Record => decide (r.id = i)) ∘ f) =
      (fun r : Record => decide (r.id = i)) := by
    funext r
    simp [hid]
  rw [List.find?_map, hfun]

theorem ids_map (rs : List Record) (f : Record → Record)
    (hid : ∀ r, (f r).id = r.id) :
    (rs.map f).map Record.id = rs.map Record.id := by
  rw [List.map_map]
  congr 1
  funext r
  exact hid r

theorem subtreeMem_depth_le (rs : List Record) (hwf : WfL rs)
    (q : Record) (hq : q ∈ rs) :
    ∀ n (c : Record), c ∈ rs → c.depth.toNat = n → subtreeMem rs q.id c.id = true →
      q.depth ≤ c.depth := by
  intro n
  induction n using Nat.strong_induction_on with
  | _ n ih =>
    intro c hcm hcd hs
    by_cases he : c.id = q.id
    · have hce : c = q := rec_id_inj rs hwf.1 c q hcm hq he
      rw [hce]
    · obtain ⟨p, hp, hsp⟩ := subtreeMem_parent rs hwf q.id c hcm hs he
      obtain ⟨pr, hprm, hpid, hdep, _⟩ := WfL_parent rs hwf c hcm p hp
      have h1 : 1 ≤ pr.depth := (hwf.2 pr hprm).1
      have h1c : 1 ≤ c.depth := (hwf.2 c hcm).1
      have : q.depth ≤ pr.depth := by
        refine ih pr.depth.toNat (by omega) pr hprm rfl ?_
        rw [hpid]
        exact hsp
      omega


/-! ## Well-formedness preservation -/

theorem CreateQuest_wf (s : Store) (uid cid : Nat) (t : String) (pid : Option Nat)
    (s2 : Store) (hwf : Wf s) (h : CreateQuest s uid cid t pid = .ok s2) : Wf s2 := by
  unfold CreateQuest at h
  rcases hc : findCol s.collections cid with _ | c
  · rw [hc] at h
    cases h
  · rw [hc] at h
    dsimp only at h
    by_cases hu : c.userId ≠ uid
    · rw [if_pos hu] at h
      cases h
    · rw [if_neg hu] at h
      rcases pid with _ | p
      · dsimp only at h
        rw [Except.ok.injEq] at h
        subst h
        refine ⟨?_, ?_⟩
        · rw [show (({ s with records := s.records ++ [⟨freshId s, t, false, cid, none, 1, allocPos s.records cid none⟩] } : Store)).records = s.records ++ [⟨freshId s, t, false, cid, none, 1, allocPos s.records cid none⟩] from rfl]
          rw [List.map_append]
          rw [List.nodup_append]
          refine ⟨hwf.1, by simp, ?_⟩
          intro x hx
          simp only [List.map_cons, List.map_nil, List.mem_cons, List.not_mem_nil] at *
          obtain ⟨r, hr, hrid⟩ := List.mem_map.mp hx
          intro hcontra
          rcases hcontra with hcontra | hcontra
          · exact freshId_not_mem s r hr (hrid.trans hcontra)
          · exact hcontra
        · intro r hr
          rcases List.mem_append.mp hr with hr | hr
          · obtain ⟨h1, h2, h3⟩ := hwf.2 r hr
            exact ⟨h1, h2, parentOk_append _ _ _ h3⟩
          · simp only [List.mem_singleton] at hr
            subst hr
            refine ⟨by norm_num, by norm_num, ?_, ?_⟩
            · intro _
              rfl
            · intro p hp
              simp at hp
      · dsimp only at h
        rcases hp : findRec s.records p with _ | pr
        · rw [hp] at h
          cases h
        · rw [hp] at h
          dsimp only at h
          by_cases hpl : pr.listId ≠ cid
          · rw [if_pos hpl] at h
            cases h
          · rw [if_neg hpl] at h
            by_cases hpd : (3 : Int) ≤ pr.depth
            · rw [if_pos hpd] at h
              cases h
            · rw [if_neg hpd] at h
              rw [Except.ok.injEq] at h
              subst h
              obtain ⟨hprm, hprid⟩ := findRec_eq_some s.records p pr hp
              have hprb := hwf.2 pr hprm
              refine ⟨?_, ?_⟩
              · rw [show (({ s with records := s.records ++ [⟨freshId s, t, false, cid, some p, pr.depth + 1, allocPos s.records cid (some p)⟩] } : Store)).records = s.records ++ [⟨freshId s, t, false, cid, some p, pr.depth + 1, allocPos s.records cid (some p)⟩] from rfl]
                rw [List.map_append, List.nodup_append]
                refine ⟨hwf.1, by simp, ?_⟩
                intro x hx
                simp only [List.map_cons, List.map_nil, List.mem_cons, List.not_mem_nil] at *
                obtain ⟨r, hr, hrid⟩ := List.mem_map.mp hx
                intro hcontra
                rcases hcontra with hcontra | hcontra
                · exact freshId_not_mem s r hr (hrid.trans hcontra)
                · exact hcontra
              · intro r hr
                rcases List.mem_append.mp hr with hr | hr
                · obtain ⟨h1, h2, h3⟩ := hwf.2 r hr
                  exact ⟨h1, h2, parentOk_append _ _ _ h3⟩
                · simp only [List.mem_singleton] at hr
                  subst hr
                  refine ⟨by simp; omega, by simp; omega, ?_, ?_⟩
                  · intro hcontra
                    cases hcontra
                  · intro p2 hp2
                    simp only [Option.toList_some, List.mem_singleton] at hp2
                    subst hp2
                    refine ⟨pr, List.mem_append_left _ hprm, hprid, rfl, ?_⟩
                    simp at hpl ⊢
                    exact hpl

theorem WfL_map_struct (rs : List Record) (g : Record → Record)
    (hid : ∀ r, (g r).id = r.id) (hpar : ∀ r, (g r).parentId = r.parentId)
    (hdep : ∀ r, (g r).depth = r.depth) (hlist : ∀ r, (g r).listId = r.listId)
    (hwf : WfL rs) : WfL (rs.map g) := by
  refine ⟨by rw [ids_map rs g hid]; exact hwf.1, ?_⟩
  intro r2 hr2
  obtain ⟨r, hr, hgr⟩ := List.mem_map.mp hr2
  subst hgr
  obtain ⟨h1, h2, h3⟩ := hwf.2 r hr
  refine ⟨by rw [hdep]; exact h1, by rw [hdep]; exact h2, ?_, ?_⟩
  · intro hnone
    rw [hpar] at hnone
    rw [hdep]
    exact h3.1 hnone
  · intro p hp
    rw [hpar] at hp
    obtain ⟨pr, hprm, hprid, hprdep, hprlist⟩ := h3.2 p hp
    refine ⟨g pr, List.mem_map_of_mem g hprm, ?_, ?_, ?_⟩
    · rw [hid]; exact hprid
    · rw [hdep, hdep]; exact hprdep
    · rw [hlist, hlist]; exact hprlist

theorem UpdateQuestContent_wf (s : Store) (uid qid : Nat) (t : Option String)
    (cmp : Option Bool) (s2 : Store) (hwf : Wf s)
    (h : UpdateQuestContent s uid qid t cmp = .ok s2) : Wf s2 := by
  unfold UpdateQuestContent at h
  rcases hq : findRec s.records qid with _ | q
  · rw [hq] at h
    cases h
  · rw [hq] at h
    dsimp only at h
    rcases hc : findCol s.collections q.listId with _ | c
    · rw [hc] at h
      cases h
    · rw [hc] at h
      dsimp only at h
      by_cases hu : c.userId ≠ uid
      · rw [if_pos hu] at h
        cases h
      · rw [if_neg hu] at h
        rw [Except.ok.injEq] at h
        subst h
        exact WfL_map_struct s.records _ (by intro r; split <;> rfl)
          (by intro r; split <;> rfl) (by intro r; split <;> rfl)
          (by intro r; split <;> rfl) hwf

theorem DeleteQuest_wf (s : Store) (uid qid : Nat) (s2 : Store) (hwf : Wf s)
    (h : DeleteQuest s uid qid = .ok s2) : Wf s2 := by
  unfold DeleteQuest at h
  rcases hq : findRec s.records qid with _ | q
  · rw [hq] at h
    cases h
  · rw [hq] at h
    dsimp only at h
    rcases hc : findCol s.collections q.listId with _ | c
    · rw [hc] at h
      cases h
    · rw [hc] at h
      dsimp only at h
      by_cases hu : c.userId ≠ uid
      · rw [if_pos hu] at h
        cases h
      · rw [if_neg hu] at h
        rw [Except.ok.injEq] at h
        subst h
        have hsub : (s.records.filter (fun r => ¬ subtreeMem s.records qid r.id)).Sublist s.records :=
          List.filter_sublist s.records
        refine ⟨(hsub.map Record.id).nodup hwf.1, ?_⟩
        intro r hr
        have hrmem := List.mem_of_mem_filter hr
        have hrkeep := List.of_mem_filter hr
        obtain ⟨h1, h2, h3⟩ := hwf.2 r hrmem
        refine ⟨h1, h2, h3.1, ?_⟩
        intro p hp
        obtain ⟨pr, hprm, hprid, hprdep, hprlist⟩ := h3.2 p hp
        refine ⟨pr, ?_, hprid, hprdep, hprlist⟩
        rw [List.mem_filter]
        refine ⟨hprm, ?_⟩
        simp only [decide_not, Bool.not_eq_eq_eq_not, Bool.not_true, decide_eq_false_iff_not] at hrkeep ⊢
        intro hcontra
        apply hrkeep
        have hp2 : r.parentId = some p := by
          cases hpp : r.parentId with
          | none => rw [hpp] at hp; simp at hp
          | some x => rw [hpp] at hp; simp at hp; rw [hp]
        refine subtreeMem_child s.records hwf qid r hrmem p hp2 ?_
        rw [hprid] at hcontra
        exact hcontra


theorem moveFun_id (s : Store) (qid : Nat) (q : Record) (tcid : Nat) (np : Option Nat)
    (nrd : Int) (r : Record) : (moveFun s qid q tcid np nrd r).id = r.id := by
  unfold moveFun
  split_ifs <;> rfl

theorem moveFun_root (s : Store) (qid : Nat) (q : Record) (tcid : Nat) (np : Option Nat)
    (nrd : Int) (r : Record) (h : r.id = qid) :
    moveFun s qid q tcid np nrd r =
      { r with listId := tcid, parentId := np, depth := nrd,
               position := allocPos s.records tcid np } := by
  unfold moveFun
  rw [if_pos h]

theorem moveFun_member (s : Store) (qid : Nat) (q : Record) (tcid : Nat) (np : Option Nat)
    (nrd : Int) (r : Record) (h : r.id ≠ qid) (hm : subtreeMem s.records qid r.id = true) :
    moveFun s qid q tcid np nrd r =
      { r with listId := tcid, depth := nrd + (r.depth - q.depth) } := by
  unfold moveFun
  rw [if_neg h, if_pos hm]

theorem moveFun_other (s : Store) (qid : Nat) (q : Record) (tcid : Nat) (np : Option Nat)
    (nrd : Int) (r : Record) (h : r.id ≠ qid) (hm : subtreeMem s.records qid r.id = false) :
    moveFun s qid q tcid np nrd r = r := by
  unfold moveFun
  rw [if_neg h, if_neg (by rw [hm]; simp)]

theorem moveCommit_wf (s : Store) (qid : Nat) (q : Record) (tcid : Nat)
    (np : Option Nat) (nrd : Int) (s2 : Store) (hwf : Wf s)
    (hq : findRec s.records qid = some q)
    (hnp : (np = none ∧ nrd = 1) ∨
           (∃ p pr, np = some p ∧ subtreeMem s.records qid p = false ∧
              findRec s.records p = some pr ∧ pr.listId = tcid ∧ nrd = pr.depth + 1))
    (h : moveCommit s qid q tcid np nrd = .ok s2) : Wf s2 := by
  obtain ⟨hqm, hqid⟩ := findRec_eq_some s.records qid q hq
  unfold moveCommit at h
  by_cases h3 : 3 < nrd
  · rw [if_pos h3] at h
    cases h
  rw [if_neg h3] at h
  by_cases hex : ∃ r ∈ s.records, subtreeMem s.records qid r.id = true ∧
      3 < nrd + (r.depth - q.depth)
  · rw [if_pos hex] at h
    cases h
  rw [if_neg hex] at h
  push_neg at hex
  rw [Except.ok.injEq] at h
  subst h
  have hnrd1 : 1 ≤ nrd := by
    rcases hnp with ⟨_, hn⟩ | ⟨p, pr, _, _, hp, _, hn⟩
    · omega
    · obtain ⟨hprm, _⟩ := findRec_eq_some s.records p pr hp
      have := (hwf.2 pr hprm).1
      omega
  refine ⟨?_, ?_⟩
  · rw [ids_map s.records _ (moveFun_id s qid q tcid np nrd)]
    exact hwf.1
  intro r2 hr2
  obtain ⟨r, hr, hgr⟩ := List.mem_map.mp hr2
  subst hgr
  obtain ⟨hb1, hb2, hpo⟩ := hwf.2 r hr
  by_cases hrq : r.id = qid
  · -- the moved root
    have hrqe : r = q := rec_id_inj s.records hwf.1 r q hr hqm (by rw [hrq, hqid])
    rw [moveFun_root s qid q tcid np nrd r hrq]
    refine ⟨hnrd1, by dsimp only; omega, ?_, ?_⟩
    · intro hnone
      dsimp only at hnone
      rcases hnp with ⟨_, hn⟩ | ⟨p, pr, hnps, _, _, _, _⟩
      · exact hn
      · rw [hnps] at hnone
        cases hnone
    · intro pp hpp
      dsimp only at hpp
      rcases hnp with ⟨hnps, _⟩ | ⟨p, pr, hnps, hcyc, hp, hprl, hn⟩
      · rw [hnps] at hpp
        simp at hpp
      · rw [hnps] at hpp
        simp only [Option.toList_some, List.mem_singleton] at hpp
        subst hpp
        obtain ⟨hprm, hprid⟩ := findRec_eq_some s.records pp pr hp
        have hprnq : pr.id ≠ qid := by
          intro hcontra
          rw [hprid] at hcontra
          rw [hcontra] at hcyc
          rw [subtreeMem_self] at hcyc
          cases hcyc
        have hprnm : subtreeMem s.records qid pr.id = false := by
          rw [hprid]
          exact hcyc
        refine ⟨moveFun s qid q tcid np nrd pr, List.mem_map_of_mem _ hprm, ?_⟩
        rw [moveFun_other s qid q tcid np nrd pr hprnq hprnm]
        exact ⟨hprid, by dsimp only; omega, by dsimp only; rw [hprl]⟩
  · by_cases hrs : subtreeMem s.records qid r.id = true
    · -- a strict descendant of the moved root
      have hdle : q.depth ≤ r.depth := by
        refine subtreeMem_depth_le s.records hwf q hqm r.depth.toNat r hr rfl ?_
        rw [hqid]
        exact hrs
      have hub := hex r hr hrs
      rw [moveFun_member s qid q tcid np nrd r hrq hrs]
      refine ⟨by dsimp only; omega, by dsimp only; omega, ?_, ?_⟩
      · intro hnone
        dsimp only at hnone
        obtain ⟨pp, hpp, _⟩ := subtreeMem_parent s.records hwf qid r hr hrs hrq
        rw [hnone] at hpp
        cases hpp
      · intro pp hpp
        dsimp only at hpp
        obtain ⟨pp2, hpp2, hppmem⟩ := subtreeMem_parent s.records hwf qid r hr hrs hrq
        have hppe : r.parentId = some pp := by
          cases hx : r.parentId with
          | none => rw [hx] at hpp; simp at hpp
          | some x => rw [hx] at hpp; simp at hpp; rw [hpp]
        have hppmem2 : subtreeMem s.records qid pp = true := by
          rw [hppe] at hpp2
          have he := Option.some.inj hpp2
          rw [← he] at hppmem
          exact hppmem
        obtain ⟨ppr, hpprm, hpprid, hpprdep, hpprlist⟩ := hpo.2 pp (by simp [hppe])
        by_cases hpq : ppr.id = qid
        · -- parent is the moved root itself
          have hppre : ppr = q := rec_id_inj s.records hwf.1 ppr q hpprm hqm (by rw [hpq, hqid])
          refine ⟨moveFun s qid q tcid np nrd ppr, List.mem_map_of_mem _ hpprm, ?_⟩
          rw [moveFun_root s qid q tcid np nrd ppr hpq]
          refine ⟨hpprid, ?_, rfl⟩
          dsimp only
          rw [hppre] at hpprdep
          omega
        · -- parent is itself a strict descendant
          have hpmem : subtreeMem s.records qid ppr.id = true := by
            rw [hpprid]
            exact hppmem2
          refine ⟨moveFun s qid q tcid np nrd ppr, List.mem_map_of_mem _ hpprm, ?_⟩
          rw [moveFun_member s qid q tcid np nrd ppr hpq hpmem]
          refine ⟨hpprid, ?_, rfl⟩
          dsimp only
          omega
    · -- an uninvolved record
      have hrs2 : subtreeMem s.records qid r.id = false := by
        simp only [Bool.not_eq_true] at hrs
        exact hrs
      rw [moveFun_other s qid q tcid np nrd r hrq hrs2]
      refine ⟨hb1, hb2, hpo.1, ?_⟩
      intro pp hpp
      obtain ⟨ppr, hpprm, hpprid, hpprdep, hpprlist⟩ := hpo.2 pp hpp
      have hppe : r.parentId = some pp := by
        cases hx : r.parentId with
        | none => rw [hx] at hpp; simp at hpp
        | some x => rw [hx] at hpp; simp at hpp; rw [hpp]
      have hpnm : subtreeMem s.records qid ppr.id = false := by
        by_contra hcontra
        simp only [Bool.not_eq_false] at hcontra
        have : subtreeMem s.records qid r.id = true := by
          refine subtreeMem_child s.records hwf qid r hr pp hppe ?_
          rw [← hpprid]
          exact hcontra
        rw [this] at hrs2
        cases hrs2
      have hpnq : ppr.id ≠ qid := by
        intro hcontra
        rw [hcontra, subtreeMem_self] at hpnm
        cases hpnm
      refine ⟨moveFun s qid q tcid np nrd ppr, List.mem_map_of_mem _ hpprm, ?_⟩
      rw [moveFun_other s qid q tcid np nrd ppr hpnq hpnm]
      exact ⟨hpprid, hpprdep, hpprlist⟩


theorem MoveQuest_wf (s : Store) (uid qid tcid : Nat) (np : Option Nat) (s2 : Store)
    (hwf : Wf s) (h : MoveQuest s uid qid tcid np = .ok s2) : Wf s2 := by
  unfold MoveQuest at h
  rcases hq : findRec s.records qid with _ | q
  · rw [hq] at h
    cases h
  rw [hq] at h
  dsimp only at h
  rcases hsc : findCol s.collections q.listId with _ | sc
  · rw [hsc] at h
    dsimp only at h
    cases h
  rw [hsc] at h
  rcases htc : findCol s.collections tcid with _ | tc
  · rw [htc] at h
    dsimp only at h
    cases h
  rw [htc] at h
  dsimp only at h
  by_cases hown : sc.userId ≠ uid ∨ tc.userId ≠ uid
  · rw [if_pos hown] at h
    cases h
  rw [if_neg hown] at h
  rcases np with _ | p
  · dsimp only at h
    exact moveCommit_wf s qid q tcid none 1 s2 hwf hq (Or.inl ⟨rfl, rfl⟩) h
  · dsimp only at h
    by_cases hcyc : subtreeMem s.records qid p = true
    · rw [if_pos hcyc] at h
      cases h
    · rw [if_neg hcyc] at h
      rcases hp : findRec s.records p with _ | pr
      · rw [hp] at h
        cases h
      · rw [hp] at h
        dsimp only at h
        by_cases hpl : pr.listId ≠ tcid
        · rw [if_pos hpl] at h
          cases h
        · rw [if_neg hpl] at h
          refine moveCommit_wf s qid q tcid (some p) (pr.depth + 1) s2 hwf hq ?_ h
          right
          exact ⟨p, pr, rfl, by simpa using hcyc, hp, by simpa using hpl, rfl⟩

theorem applyOp_wf (s : Store) (op : Op) (s2 : Store) (hwf : Wf s)
    (h : applyOp s op = .ok s2) : Wf s2 := by
  cases op with
  | create uid cid t pid => exact CreateQuest_wf s uid cid t pid s2 hwf h
  | updateContent uid qid t cmp => exact UpdateQuestContent_wf s uid qid t cmp s2 hwf h
  | move uid qid tcid np => exact MoveQuest_wf s uid qid tcid np s2 hwf h
  | delete uid qid => exact DeleteQuest_wf s uid qid s2 hwf h

theorem DepthInv_of_wf (s : Store) (hwf : Wf s) : DepthInv s := by
  intro r hr
  obtain ⟨h1, h2, h3⟩ := hwf.2 r hr
  refine ⟨by omega, h3.1, ?_⟩
  intro p hp pr hprm hprid
  obtain ⟨pr2, hpr2m, hpr2id, hpr2dep, _⟩ := h3.2 p hp
  have he : pr = pr2 := rec_id_inj s.records hwf.1 pr pr2 hprm hpr2m (by rw [hprid, hpr2id])
  rw [← he] at hpr2dep
  exact ⟨hpr2dep, by omega⟩


/-! ## Claim theorems -/

/-- C1: after every mutation accepted by the engine, every quest's depth
lies in the set 1, 2, 3; a quest's depth equals its parent's depth plus
one when it has a parent and 1 otherwise; and no quest at depth 3 has a
child (its children would need depth 4). -/
theorem c1_depth_invariant (s : Store) (op : Op) (s2 : Store)
    (hwf : Wf s) (h : applyOp s op = .ok s2) : DepthInv s2 :=
  DepthInv_of_wf s2 (applyOp_wf s op s2 hwf h)

/-- C2: CreateQuest under an existing, owned, same-collection parent at
depth 3 fails with DepthExceeded; under a parent at depth 2 it succeeds
and the appended quest has depth 3. -/
theorem c2_create_depth (s : Store) (uid cid : Nat) (t : String) (pid : Nat)
    (c : Collection) (pr : Record)
    (hc : findCol s.collections cid = some c) (hu : c.userId = uid)
    (hp : findRec s.records pid = some pr) (hpl : pr.listId = cid) :
    (pr.depth = 3 → CreateQuest s uid cid t (some pid) = .error .DepthExceeded) ∧
    (pr.depth = 2 → CreateQuest s uid cid t (some pid) =
      .ok { s with records := s.records ++
        [⟨freshId s, t, false, cid, some pid, 3, allocPos s.records cid (some pid)⟩] }) := by
  unfold CreateQuest
  rw [hc]
  dsimp only
  rw [if_neg (by rw [hu]; simp), hp]
  dsimp only
  rw [if_neg (by rw [hpl]; simp)]
  constructor
  · intro hd
    rw [if_pos (by rw [hd])]
  · intro hd
    rw [if_neg (by rw [hd]; norm_num), hd]
    norm_num

/-- C3: a move whose requested parent is the quest itself or any of its
descendants fails with CycleDetected, and the rejected transaction
leaves the store exactly as it was. -/
theorem c3_move_cycle (s : Store) (uid qid tcid p : Nat) (q : Record)
    (sc tc : Collection)
    (hq : findRec s.records qid = some q)
    (hsc : findCol s.collections q.listId = some sc)
    (htc : findCol s.collections tcid = some tc)
    (hus : sc.userId = uid) (hut : tc.userId = uid)
    (hcyc : p = qid ∨ subtreeMem s.records qid p = true) :
    MoveQuest s uid qid tcid (some p) = .error .CycleDetected ∧
    runOp s (Op.move uid qid tcid (some p)) = (s, some Err.CycleDetected) := by
  have hcyc2 : subtreeMem s.records qid p = true := by
    rcases hcyc with hcyc | hcyc
    · rw [hcyc]
      exact subtreeMem_self s.records qid
    · exact hcyc
  have hmq : MoveQuest s uid qid tcid (some p) = .error .CycleDetected := by
    unfold MoveQuest
    rw [hq]
    dsimp only
    rw [hsc, htc]
    dsimp only
    rw [if_neg (by rw [hus, hut]; simp)]
    rw [if_pos hcyc2]
  refine ⟨hmq, ?_⟩
  unfold runOp applyOp
  dsimp only
  rw [hmq]

/-- C5: the frontend moveQuest request always carries an explicit
parent_id key — null when no new parent is supplied — and a move without
a new parent makes the moved quest top-level: parent cleared to null,
depth reset to 1. -/
theorem c5_move_clears_parent (s : Store) (uid qid tcid : Nat) (s2 : Store)
    (h : MoveQuest s uid qid tcid none = .ok s2) :
    (moveQuestUpdates tcid none).parent_id = some none ∧
    (updateItemBody (moveQuestUpdates tcid none)).parent_id = some none ∧
    ∀ r2 ∈ s2.records, r2.id = qid → r2.parentId = none ∧ r2.depth = 1 := by
  refine ⟨rfl, rfl, ?_⟩
  unfold MoveQuest at h
  rcases hq : findRec s.records qid with _ | q
  · rw [hq] at h
    cases h
  rw [hq] at h
  dsimp only at h
  rcases hsc : findCol s.collections q.listId with _ | sc
  · rw [hsc] at h
    dsimp only at h
    cases h
  rw [hsc] at h
  rcases htc : findCol s.collections tcid with _ | tc
  · rw [htc] at h
    dsimp only at h
    cases h
  rw [htc] at h
  dsimp only at h
  by_cases hown : sc.userId ≠ uid ∨ tc.userId ≠ uid
  · rw [if_pos hown] at h
    cases h
  rw [if_neg hown] at h
  unfold moveCommit at h
  by_cases h3 : (3 : Int) < 1
  · rw [if_pos h3] at h
    cases h
  rw [if_neg h3] at h
  by_cases hex : ∃ r ∈ s.records, subtreeMem s.records qid r.id = true ∧
      3 < 1 + (r.depth - q.depth)
  · rw [if_pos hex] at h
    cases h
  rw [if_neg hex] at h
  rw [Except.ok.injEq] at h
  subst h
  intro r2 hr2 hid
  obtain ⟨r, hr, hgr⟩ := List.mem_map.mp hr2
  have hrq : r.id = qid := by
    rw [← hid, ← hgr, moveFun_id]
  rw [← hgr, moveFun_root s qid q tcid none 1 r hrq]
  exact ⟨rfl, rfl⟩

/-- C6: DeleteQuest removes the quest together with its whole
descendant subtree: afterwards no id of the former subtree resolves in
the store, and no surviving quest has a dangling parent. -/
theorem c6_delete_cascade (s : Store) (uid qid : Nat) (s2 : Store) (hwf : Wf s)
    (h : DeleteQuest s uid qid = .ok s2) :
    (∀ x, subtreeMem s.records qid x = true → findRec s2.records x = none) ∧
    (∀ r2 ∈ s2.records, ∀ pp, r2.parentId = some pp → ∃ ppr ∈ s2.records, ppr.id = pp) := by
  have hwf2 : Wf s2 := DeleteQuest_wf s uid qid s2 hwf h
  unfold DeleteQuest at h
  rcases hq : findRec s.records qid with _ | q
  · rw [hq] at h
    cases h
  rw [hq] at h
  dsimp only at h
  rcases hc : findCol s.collections q.listId with _ | c
  · rw [hc] at h
    cases h
  rw [hc] at h
  dsimp only at h
  by_cases hu : c.userId ≠ uid
  · rw [if_pos hu] at h
    cases h
  rw [if_neg hu] at h
  rw [Except.ok.injEq] at h
  subst h
  constructor
  · intro x hx
    rw [findRec_eq_none]
    intro r hrm
    have hkeep := List.of_mem_filter hrm
    simp only [decide_not, Bool.not_eq_eq_eq_not, Bool.not_true, decide_eq_false_iff_not] at hkeep
    intro hcontra
    apply hkeep
    rw [hcontra]
    exact hx
  · intro r2 hr2 pp hpp
    obtain ⟨ppr, hpprm, hpprid, _, _⟩ := (hwf2.2 r2 hr2).2.2.2 pp (by simp [hpp])
    exact ⟨ppr, hpprm, hpprid⟩

/-- C7: a mutation rejected with any error commits nothing — the store
state paired with the error by the transaction runner is exactly the
pre-operation state. -/
theorem c7_rejected_unchanged (s : Store) (op : Op) (e : Err)
    (h : (runOp s op).2 = some e) : (runOp s op).1 = s := by
  unfold runOp at h ⊢
  cases happ : applyOp s op with
  | ok s2 =>
    rw [happ] at h
    simp at h
  | error e2 => rfl

/-- C8: updating a quest's content (title and/or completion flag)
changes no structural field — collections, every other record, and the
target's parent, depth, position and owning collection are untouched. -/
theorem c8_update_content_frame (s : Store) (uid qid : Nat) (t : Option String)
    (cmp : Option Bool) (s2 : Store)
    (h : UpdateQuestContent s uid qid t cmp = .ok s2) :
    s2.collections = s.collections ∧
    (∀ r ∈ s.records, r.id ≠ qid → r ∈ s2.records) ∧
    (∀ r2 ∈ s2.records, ∃ r ∈ s.records, r2.id = r.id ∧ r2.parentId = r.parentId ∧
      r2.depth = r.depth ∧ r2.position = r.position ∧ r2.listId = r.listId) := by
  unfold UpdateQuestContent at h
  rcases hq : findRec s.records qid with _ | q
  · rw [hq] at h
    cases h
  rw [hq] at h
  dsimp only at h
  rcases hc : findCol s.collections q.listId with _ | c
  · rw [hc] at h
    cases h
  rw [hc] at h
  dsimp only at h
  by_cases hu : c.userId ≠ uid
  · rw [if_pos hu] at h
    cases h
  rw [if_neg hu] at h
  rw [Except.ok.injEq] at h
  subst h
  refine ⟨rfl, ?_, ?_⟩
  · intro r hr hne
    have : (if r.id = qid then
        { r with title := t.getD r.title, completed := cmp.getD r.completed } else r) = r := by
      rw [if_neg hne]
    rw [show ({ s with records := s.records.map (fun r =>
        if r.id = qid then
          { r with title := t.getD r.title, completed := cmp.getD r.completed }
        else r) } : Store).records = s.records.map (fun r =>
        if r.id = qid then
          { r with title := t.getD r.title, completed := cmp.getD r.completed }
        else r) from rfl]
    rw [← this]
    exact List.mem_map_of_mem _ hr
  · intro r2 hr2
    obtain ⟨r, hr, hgr⟩ := List.mem_map.mp hr2
    refine ⟨r, hr, ?_⟩
    rw [← hgr]
    by_cases hne : r.id = qid
    · rw [if_pos hne]
      exact ⟨rfl, rfl, rfl, rfl, rfl⟩
    · rw [if_neg hne]
      exact ⟨rfl, rfl, rfl, rfl, rfl⟩


/-! ## Frontend lemmas -/

theorem transformItemToQuest_mk (id : Nat) (t : String) (c : Bool) (l : Int)
    (li : Nat) (p : Option Nat) (cs : List Item) :
    transformItemToQuest (.mk id t c l li p cs) =
      .mk (toString id) t c (l - 1) (toString li)
        (match p with
         | some pp => if pp ≠ 0 then some (toString pp) else none
         | none => none)
        (cs.map transformItemToQuest) := by
  rw [transformItemToQuest.eq_def]
  simp

theorem levelsOf_mk (id : Nat) (t : String) (c : Bool) (l : Int)
    (li : Nat) (p : Option Nat) (cs : List Item) :
    levelsOf (.mk id t c l li p cs) = l :: (cs.map levelsOf).flatten := by
  rw [levelsOf]
  simp

theorem depthsOf_mk (id : String) (t : String) (c : Bool) (d : Int)
    (li : String) (p : Option String) (cs : List QuestF) :
    depthsOf (.mk id t c d li p cs) = d :: (cs.map depthsOf).flatten := by
  rw [depthsOf]
  simp

/-- C9: the frontend transformation of a backend item tree sets every
quest's depth to the item's level minus one, recursively through all
children — the preorder depth list of the transformed tree is the
preorder level list shifted down by one. -/
theorem c9_depth_is_level_minus_one (i : Item) :
    depthsOf (transformItemToQuest i) = (levelsOf i).map (fun l => l - 1) := by
  induction i using transformItemToQuest.induct with
  | _ id t c l li p cs ih =>
    rw [transformItemToQuest_mk, depthsOf_mk, levelsOf_mk]
    simp only [List.map_cons, List.map_map]
    congr 1
    rw [List.map_flatten]
    congr 1
    rw [List.map_map]
    apply List.map_congr_left
    intro x hx
    exact ih ⟨x, hx⟩

/-- C10: countAllQuests returns exactly the number of quests in a
forest, descendants included — it equals the length of the preorder
flattening produced by getAllQuestsFlat. -/
theorem c10_count_eq_flat_length (qs : List QuestF) :
    countAllQuests qs = (getAllQuestsFlat qs).length := by
  induction qs using countAllQuests.induct with
  | case1 => simp [countAllQuests, getAllQuestsFlat]
  | case2 q rest ih1 ih2 =>
    rw [countAllQuests, getAllQuestsFlat]
    by_cases h : q.children.length > 0
    · rw [if_pos h, if_pos h]
      simp only [List.length_append, List.length_cons]
      omega
    · rw [if_neg h, if_neg h]
      simp only [List.length_append, List.length_cons, List.length_nil]
      omega


/-! ## Read Projector lemmas -/

theorem flattenForest_nil : flattenForest [] = [] := by
  rw [flattenForest]

theorem flattenForest_cons (r : Record) (cs rest : List Tree) :
    flattenForest (.node r cs :: rest) = r :: (flattenForest cs ++ flattenForest rest) := by
  rw [flattenForest]

theorem buildForest_cons (fuel : Nat) (rs : List Record) (a : Record) (tl : List Record) :
    buildForest fuel rs (a :: tl) =
      .node a (match fuel with
               | 0 => []
               | f + 1 => buildForest f rs (childrenRecs rs a.id)) :: buildForest fuel rs tl := by
  cases fuel <;> rfl

theorem insertByPos_mem (r x : Record) (l : List Record) :
    x ∈ insertByPos r l ↔ x = r ∨ x ∈ l := by
  induction l with
  | nil => simp [insertByPos]
  | cons a tl ih =>
    rw [insertByPos]
    split
    · simp only [List.mem_cons]
    · simp only [List.mem_cons, ih]
      tauto

theorem sortByPos_mem (x : Record) (l : List Record) : x ∈ sortByPos l ↔ x ∈ l := by
  induction l with
  | nil => simp [sortByPos]
  | cons a tl ih =>
    rw [sortByPos, insertByPos_mem]
    simp only [List.mem_cons, ih]

theorem childrenRecs_sub (rs : List Record) (i : Nat) (r : Record)
    (h : r ∈ childrenRecs rs i) : r ∈ rs ∧ r.parentId = some i := by
  unfold childrenRecs at h
  rw [sortByPos_mem] at h
  have hh := List.mem_filter.mp h
  refine ⟨hh.1, ?_⟩
  simpa using hh.2

theorem childrenRecs_mem (rs : List Record) (i : Nat) (r : Record)
    (hm : r ∈ rs) (hp : r.parentId = some i) : r ∈ childrenRecs rs i := by
  unfold childrenRecs
  rw [sortByPos_mem]
  rw [List.mem_filter]
  exact ⟨hm, by simp [hp]⟩

theorem flatten_buildForest_sub (fuel : Nat) (rs : List Record) :
    ∀ roots r, r ∈ flattenForest (buildForest fuel rs roots) → r ∈ roots ∨ r ∈ rs := by
  induction fuel with
  | zero =>
    intro roots r
    induction roots with
    | nil =>
      intro h
      simp [buildForest, flattenForest] at h
    | cons a tl ihl =>
      intro h
      rw [buildForest_cons, flattenForest_cons] at h
      rcases List.mem_cons.mp h with h | h
      · left
        rw [h]
        exact List.mem_cons_self a tl
      · rcases List.mem_append.mp h with h | h
        · rw [flattenForest_nil] at h
          cases h
        · rcases ihl h with h | h
          · left
            exact List.mem_cons_of_mem a h
          · right
            exact h
  | succ fuel ihf =>
    intro roots r
    induction roots with
    | nil =>
      intro h
      simp [buildForest, flattenForest] at h
    | cons a tl ihl =>
      intro h
      rw [buildForest_cons, flattenForest_cons] at h
      rcases List.mem_cons.mp h with h | h
      · left
        rw [h]
        exact List.mem_cons_self a tl
      · rcases List.mem_append.mp h with h | h
        · rcases ihf (childrenRecs rs a.id) r h with h | h
          · right
            exact (childrenRecs_sub rs a.id r h).1
          · right
            exact h
        · rcases ihl h with h | h
          · left
            exact List.mem_cons_of_mem a h
          · right
            exact h

theorem roots_mem_flatten (fuel : Nat) (rs : List Record) (roots : List Record)
    (r : Record) (h : r ∈ roots) : r ∈ flattenForest (buildForest fuel rs roots) := by
  induction roots with
  | nil => cases h
  | cons a tl ih =>
    rw [buildForest_cons, flattenForest_cons]
    rcases List.mem_cons.mp h with h | h
    · rw [h]
      exact List.mem_cons_self _ _
    · exact List.mem_cons_of_mem _ (List.mem_append_right _ (ih h))

theorem flatten_sub_root (fuel : Nat) (rs : List Record) (roots : List Record)
    (p : Record) (hp : p ∈ roots) (r : Record)
    (h : r ∈ flattenForest (buildForest fuel rs (childrenRecs rs p.id))) :
    r ∈ flattenForest (buildForest (fuel + 1) rs roots) := by
  induction roots with
  | nil => cases hp
  | cons a tl ih =>
    rw [buildForest_cons, flattenForest_cons]
    rcases List.mem_cons.mp hp with hpa | hpa
    · refine List.mem_cons_of_mem _ (List.mem_append_left _ ?_)
      rw [← hpa]
      exact h
    · exact List.mem_cons_of_mem _ (List.mem_append_right _ (ih hpa))

/-- Reachability of a record from a root set by descending exactly `k`
levels through `childrenRecs`. -/
def ReachN (rs : List Record) : Nat → List Record → Record → Prop
  | 0, roots, r => r ∈ roots
  | k + 1, roots, r => ∃ p ∈ roots, ReachN rs k (childrenRecs rs p.id) r

theorem reach_mem_flatten (rs : List Record) :
    ∀ k fuel roots r, k ≤ fuel → ReachN rs k roots r →
      r ∈ flattenForest (buildForest fuel rs roots) := by
  intro k
  induction k with
  | zero =>
    intro fuel roots r _ h
    exact roots_mem_flatten fuel rs roots r h
  | succ k ih =>
    intro fuel roots r hk h
    obtain ⟨p, hp, hre⟩ := h
    cases fuel with
    | zero => omega
    | succ f =>
      exact flatten_sub_root f rs roots p hp r
        (ih f (childrenRecs rs p.id) r (by omega) hre)

theorem reach_extend (rs : List Record) :
    ∀ k roots pr r, ReachN rs k roots pr → r ∈ childrenRecs rs pr.id →
      ReachN rs (k + 1) roots r := by
  intro k
  induction k with
  | zero =>
    intro roots pr r h hc
    exact ⟨pr, h, hc⟩
  | succ k ih =>
    intro roots pr r h hc
    obtain ⟨p, hp, hre⟩ := h
    exact ⟨p, hp, ih _ pr r hre hc⟩

theorem getTree_eq (s : Store) (cid : Nat) :
    getTree s cid =
      buildForest (chainFuel s.records) (s.records.filter (fun r => r.listId = cid))
        (sortByPos ((s.records.filter (fun r => r.listId = cid)).filter (fun r =>
          match r.parentId with
          | none => true
          | some p => (findRec (s.records.filter (fun r => r.listId = cid)) p).isNone))) := rfl

theorem getTree_sound (s : Store) (cid : Nat) (r : Record)
    (h : r ∈ flattenForest (getTree s cid)) : r ∈ s.records ∧ r.listId = cid := by
  rw [getTree_eq] at h
  have hload : r ∈ s.records.filter (fun r => r.listId = cid) := by
    rcases flatten_buildForest_sub _ _ _ r h with h | h
    · rw [sortByPos_mem] at h
      exact (List.mem_filter.mp h).1
    · exact h
  have hh := List.mem_filter.mp hload
  refine ⟨hh.1, ?_⟩
  simpa using hh.2

theorem getTree_complete_aux (s : Store) (hwf : Wf s) (cid : Nat) :
    ∀ n r, r ∈ s.records → r.listId = cid → r.depth.toNat = n →
      ∃ k, k + 1 ≤ n ∧
        ReachN (s.records.filter (fun r => r.listId = cid)) k
          (sortByPos ((s.records.filter (fun r => r.listId = cid)).filter (fun r =>
            match r.parentId with
            | none => true
            | some p => (findRec (s.records.filter (fun r => r.listId = cid)) p).isNone))) r := by
  intro n
  induction n using Nat.strong_induction_on with
  | _ n ih =>
    intro r hm hl hd
    obtain ⟨h1, h2, h3⟩ := hwf.2 r hm
    have hload : r ∈ s.records.filter (fun r => r.listId = cid) := by
      rw [List.mem_filter]
      exact ⟨hm, by simp [hl]⟩
    rcases hpar : r.parentId with _ | p
    · refine ⟨0, by have := h3.1 hpar; omega, ?_⟩
      rw [ReachN, sortByPos_mem, List.mem_filter]
      refine ⟨hload, ?_⟩
      rw [hpar]
    · obtain ⟨pr, hprm, hprid, hprdep, hprlist⟩ := h3.2 p (by simp [hpar])
      have hprl : pr.listId = cid := by rw [hprlist, hl]
      have hprload : pr ∈ s.records.filter (fun r => r.listId = cid) := by
        rw [List.mem_filter]
        exact ⟨hprm, by simp [hprl]⟩
      have hpr1 : 1 ≤ pr.depth := (hwf.2 pr hprm).1
      obtain ⟨k, hk, hre⟩ := ih pr.depth.toNat (by omega) pr hprm hprl rfl
      refine ⟨k + 1, by omega, ?_⟩
      refine reach_extend _ k _ pr r hre ?_
      refine childrenRecs_mem _ pr.id r hload ?_
      rw [hpar, hprid]

theorem getTree_complete (s : Store) (hwf : Wf s) (cid : Nat) (r : Record)
    (hm : r ∈ s.records) (hl : r.listId = cid) :
    r ∈ flattenForest (getTree s cid) := by
  obtain ⟨k, hk, hre⟩ := getTree_complete_aux s hwf cid r.depth.toNat r hm hl rfl
  have hd3 : r.depth ≤ 3 := (hwf.2 r hm).2.1
  have hfuel := chainFuel_ge s.records
  rw [getTree_eq]
  exact reach_mem_flatten _ k (chainFuel s.records) _ r (by omega) hre

/-! ## Shape of a successful move -/

theorem MoveQuest_ok_shape (s : Store) (uid qid tcid : Nat) (np : Option Nat) (s2 : Store)
    (h : MoveQuest s uid qid tcid np = .ok s2) :
    ∃ q nrd, findRec s.records qid = some q ∧
      s2 = { s with records := s.records.map (moveFun s qid q tcid np nrd) } := by
  unfold MoveQuest at h
  rcases hq : findRec s.records qid with _ | q
  · rw [hq] at h
    cases h
  rw [hq] at h
  dsimp only at h
  rcases hsc : findCol s.collections q.listId with _ | sc
  · rw [hsc] at h
    dsimp only at h
    cases h
  rw [hsc] at h
  rcases htc : findCol s.collections tcid with _ | tc
  · rw [htc] at h
    dsimp only at h
    cases h
  rw [htc] at h
  dsimp only at h
  by_cases hown : sc.userId ≠ uid ∨ tc.userId ≠ uid
  · rw [if_pos hown] at h
    cases h
  rw [if_neg hown] at h
  rcases np with _ | p
  · dsimp only at h
    unfold moveCommit at h
    split at h
    · cases h
    split at h
    · cases h
    rw [Except.ok.injEq] at h
    exact ⟨q, 1, rfl, h.symm⟩
  · dsimp only at h
    by_cases hcyc : subtreeMem s.records qid p = true
    · rw [if_pos hcyc] at h
      cases h
    rw [if_neg hcyc] at h
    rcases hp : findRec s.records p with _ | pr
    · rw [hp] at h
      cases h
    rw [hp] at h
    dsimp only at h
    by_cases hpl : pr.listId ≠ tcid
    · rw [if_pos hpl] at h
      cases h
    rw [if_neg hpl] at h
    unfold moveCommit at h
    split at h
    · cases h
    split at h
    · cases h
    rw [Except.ok.injEq] at h
    exact ⟨q, pr.depth + 1, rfl, h.symm⟩


/-- C4: a successful move of a quest into a different collection
reassigns the collection id of every subtree member; afterwards the
source collection's tree contains none of the subtree's quests, the
target collection's tree contains the whole subtree, and every strict
descendant keeps its position and parent (so sibling order inside the
subtree, which the projector sorts by position, is preserved). -/
theorem c4_move_across_collections (s : Store) (uid qid tcid : Nat) (np : Option Nat)
    (s2 : Store) (q : Record) (hwf : Wf s)
    (hq : findRec s.records qid = some q) (hdiff : q.listId ≠ tcid)
    (h : MoveQuest s uid qid tcid np = .ok s2) :
    (∀ r ∈ s.records, subtreeMem s.records qid r.id = true →
       ∃ r2 ∈ s2.records, r2.id = r.id ∧ r2.listId = tcid) ∧
    (∀ r2 ∈ flattenForest (getTree s2 q.listId), subtreeMem s.records qid r2.id = false) ∧
    (∀ r ∈ s.records, subtreeMem s.records qid r.id = true →
       ∃ r2 ∈ flattenForest (getTree s2 tcid), r2.id = r.id) ∧
    (∀ r ∈ s.records, subtreeMem s.records qid r.id = true → r.id ≠ qid →
       ∃ r2 ∈ s2.records, r2.id = r.id ∧ r2.position = r.position ∧
         r2.parentId = r.parentId) := by
  have hwf2 : Wf s2 := MoveQuest_wf s uid qid tcid np s2 hwf h
  obtain ⟨q2, nrd, hq2, hs2⟩ := MoveQuest_ok_shape s uid qid tcid np s2 h
  have hqq : q2 = q := by
    rw [hq] at hq2
    exact (Option.some.inj hq2).symm
  subst hqq
  have hrecs : s2.records = s.records.map (moveFun s qid q2 tcid np nrd) := by
    rw [hs2]
  have hlist : ∀ r ∈ s.records, subtreeMem s.records qid r.id = true →
      (moveFun s qid q2 tcid np nrd r).listId = tcid := by
    intro r hr hsm
    by_cases hrq : r.id = qid
    · rw [moveFun_root s qid q2 tcid np nrd r hrq]
    · rw [moveFun_member s qid q2 tcid np nrd r hrq hsm]
  refine ⟨?_, ?_, ?_, ?_⟩
  · intro r hr hsm
    refine ⟨moveFun s qid q2 tcid np nrd r, ?_, moveFun_id s qid q2 tcid np nrd r, ?_⟩
    · rw [hrecs]
      exact List.mem_map_of_mem _ hr
    · exact hlist r hr hsm
  · intro r2 hr2
    obtain ⟨hr2m, hr2l⟩ := getTree_sound s2 q2.listId r2 hr2
    by_contra hc
    simp only [Bool.not_eq_false] at hc
    rw [hrecs] at hr2m
    obtain ⟨r, hr, hgr⟩ := List.mem_map.mp hr2m
    have hid : r2.id = r.id := by
      rw [← hgr, moveFun_id]
    rw [hid] at hc
    have := hlist r hr hc
    rw [hgr] at this
    rw [this] at hr2l
    exact hdiff hr2l.symm
  · intro r hr hsm
    refine ⟨moveFun s qid q2 tcid np nrd r, ?_, moveFun_id s qid q2 tcid np nrd r⟩
    refine getTree_complete s2 hwf2 tcid _ ?_ (hlist r hr hsm)
    rw [hrecs]
    exact List.mem_map_of_mem _ hr
  · intro r hr hsm hrq
    refine ⟨moveFun s qid q2 tcid np nrd r, ?_, moveFun_id s qid q2 tcid np nrd r, ?_, ?_⟩
    · rw [hrecs]
      exact List.mem_map_of_mem _ hr
    · rw [moveFun_member s qid q2 tcid np nrd r hrq hsm]
    · rw [moveFun_member s qid q2 tcid np nrd r hrq hsm]


/-! ## Concrete witness data -/

def colA : Collection := ⟨1, "A", 10, 0⟩

def colB : Collection := ⟨2, "B", 10, 1⟩

def wr1 : Record := ⟨1, "q1", false, 1, none, 1, 1⟩

def wr2 : Record := ⟨2, "q2", false, 1, some 1, 2, 1⟩

def wr3 : Record := ⟨3, "q3", false, 1, some 2, 3, 1⟩

/-- A small well-formed store: one owner, two collections, a single
depth-1/2/3 chain of quests in the first collection. -/
def s0 : Store := ⟨[colA, colB], [wr1, wr2, wr3]⟩

/-- The store after moving quest 2 (and its subtree) into collection 2. -/
def s4w : Store :=
  ⟨[colA, colB], [wr1, ⟨2, "q2", false, 2, none, 1, 1⟩, ⟨3, "q3", false, 2, some 2, 2, 1⟩]⟩

/-- The store after deleting quest 2 (and its subtree). -/
def s6w : Store := ⟨[colA, colB], [wr1]⟩

/-- The store after retitling quest 2. -/
def s8w : Store := ⟨[colA, colB], [wr1, ⟨2, "x", false, 1, some 1, 2, 1⟩, wr3]⟩

theorem c1_depth_invariant_witness :
    Wf s0 ∧ DepthInv (⟨[colA, colB],
      [wr1, wr2, wr3, ⟨4, "n", false, 1, some 1, 2, 2⟩]⟩ : Store) :=
  ⟨by decide, c1_depth_invariant s0 (Op.create 10 1 "n" (some 1)) _ (by decide) (by rfl)⟩

theorem c2_create_depth_witness :
    (wr3.depth = 3 → CreateQuest s0 10 1 "n" (some 3) = .error .DepthExceeded) ∧
    (wr3.depth = 2 → CreateQuest s0 10 1 "n" (some 3) =
      .ok { s0 with records := s0.records ++
        [⟨freshId s0, "n", false, 1, some 3, 3, allocPos s0.records 1 (some 3)⟩] }) :=
  c2_create_depth s0 10 1 "n" 3 colA wr3 (by decide) (by decide) (by decide) (by decide)

theorem c3_move_cycle_witness :
    MoveQuest s0 10 1 2 (some 3) = .error .CycleDetected ∧
    runOp s0 (Op.move 10 1 2 (some 3)) = (s0, some Err.CycleDetected) :=
  c3_move_cycle s0 10 1 2 3 wr1 colA colB (by decide) (by decide) (by decide)
    (by decide) (by decide) (Or.inr (by decide))

theorem c4_move_across_collections_witness :
    (∀ r ∈ s0.records, subtreeMem s0.records 2 r.id = true →
       ∃ r2 ∈ s4w.records, r2.id = r.id ∧ r2.listId = 2) ∧
    (∀ r2 ∈ flattenForest (getTree s4w wr2.listId), subtreeMem s0.records 2 r2.id = false) ∧
    (∀ r ∈ s0.records, subtreeMem s0.records 2 r.id = true →
       ∃ r2 ∈ flattenForest (getTree s4w 2), r2.id = r.id) ∧
    (∀ r ∈ s0.records, subtreeMem s0.records 2 r.id = true → r.id ≠ 2 →
       ∃ r2 ∈ s4w.records, r2.id = r.id ∧ r2.position = r.position ∧
         r2.parentId = r.parentId) :=
  c4_move_across_collections s0 10 2 2 none s4w wr2 (by decide) (by decide)
    (by decide) (by rfl)

theorem c5_move_clears_parent_witness :
    (moveQuestUpdates 2 none).parent_id = some none ∧
    (updateItemBody (moveQuestUpdates 2 none)).parent_id = some none ∧
    ∀ r2 ∈ s4w.records, r2.id = 2 → r2.parentId = none ∧ r2.depth = 1 :=
  c5_move_clears_parent s0 10 2 2 s4w (by rfl)

theorem c6_delete_cascade_witness :
    (∀ x, subtreeMem s0.records 2 x = true → findRec s6w.records x = none) ∧
    (∀ r2 ∈ s6w.records, ∀ pp, r2.parentId = some pp → ∃ ppr ∈ s6w.records, ppr.id = pp) :=
  c6_delete_cascade s0 10 2 s6w (by decide) (by rfl)

theorem c7_rejected_unchanged_witness :
    (runOp s0 (Op.delete 10 99)).1 = s0 :=
  c7_rejected_unchanged s0 (Op.delete 10 99) Err.NotFound (by decide)

theorem c8_update_content_frame_witness :
    s8w.collections = s0.collections ∧
    (∀ r ∈ s0.records, r.id ≠ 2 → r ∈ s8w.records) ∧
    (∀ r2 ∈ s8w.records, ∃ r ∈ s0.records, r2.id = r.id ∧ r2.parentId = r.parentId ∧
      r2.depth = r.depth ∧ r2.position = r.position ∧ r2.listId = r.listId) :=
  c8_update_content_frame s0 10 2 (some "x") none s8w (by rfl)

end HKTodo
